import Mathlib

/-!
Verification of the π-approximation program in
`src/Zaawansowane5/Zaawansowane5.cpp`.

The program integrates f(x) = sqrt(1 - x²) over [0, 1] by the midpoint
rectangle rule with N subintervals, splitting the index range [0, N)
across T worker threads, then reduces the per-worker partial sums and
prints piApprox = 4 * step * totalSum.

The embedding below follows the source function by function:
* `f`               — `inline double f(double x)` (line 30);
* `ThreadData`      — `struct ThreadData` (lines 43–48);
* `sumLoop` / `threadFunction` — `void threadFunction(ThreadData&)` (lines 59–66);
* `rangesAux` / `ranges`       — the partition loop of `main` (lines 97–121);
* `threadData`      — the `std::vector<ThreadData>` after the setup loop;
* `runWorker` / `runAll`       — the worker threads executing, each updating
  only its own slot, in an arbitrary completion order;
* `totalSumOf`, `integralValue`, `pi_approx`, `mainOutput`, `mainRun`
  — the join-and-reduce loop of `main` (lines 124–132);
* `mainOutcome`     — the program's control flow on the raw inputs N
  (unsigned long long, modelled by ℕ) and T (int, modelled by ℤ).

Machine doubles are modelled by exact real numbers ℝ; unsigned 64-bit
indices by ℕ (all index arithmetic in the source stays below N < 2^64
and never wraps, so ℕ is faithful).
-/

namespace Zaw5

/-- `inline double f(double x) { return std::sqrt(1.0 - x * x); }` -/
noncomputable def f (x : ℝ) : ℝ := Real.sqrt (1 - x * x)

/-- `struct ThreadData { unsigned long long start; unsigned long long end;
double sum; double step; };` (`end` is a Lean keyword, hence `endIdx`). -/
structure ThreadData where
  start : ℕ
  endIdx : ℕ
  sum : ℝ
  step : ℝ

/-- The loop body of `threadFunction`: starting at index `i` with
accumulator `acc`, run `k` more iterations of
`acc += f((double(i) + 0.5) * stp); ++i`. -/
noncomputable def sumLoop (stp : ℝ) : ℕ → ℝ → ℕ → ℝ
  | _, acc, 0 => acc
  | i, acc, Nat.succ k => sumLoop stp (i + 1) (acc + f (((i : ℝ) + 0.5) * stp)) k

/-- `void threadFunction(ThreadData& data)`: iterate `i` from `data.start`
while `i < data.end` (that is, `data.end - data.start` iterations),
accumulating `partialSum`, then write `data.sum = partialSum`. -/
noncomputable def threadFunction (data : ThreadData) : ThreadData :=
  { data with sum := sumLoop data.step data.start 0 (data.endIdx - data.start) }

/-- The partition loop of `main` (lines 104–121): with `chunk = N / T` and
`rem = N % T` fixed, iterate the loop index `i` and `currentStart`,
producing each worker's `(currentStart, currentEnd)` where
`currentEnd = currentStart + chunk + (1 if i < rem else 0)`.
The last argument counts the remaining iterations (`T - i`). -/
def rangesAux (chunk rem : ℕ) : ℕ → ℕ → ℕ → List (ℕ × ℕ)
  | _, _, 0 => []
  | i, currentStart, Nat.succ k =>
      (currentStart, currentStart + chunk + if i < rem then 1 else 0) ::
        rangesAux chunk rem (i + 1)
          (currentStart + chunk + if i < rem then 1 else 0) k

/-- The T index ranges produced by `main`'s partition loop:
`chunk = N / T`, `remainder = N % T`, `currentStart = 0`, loop `i` from 0
to `T - 1`. -/
def ranges (N T : ℕ) : List (ℕ × ℕ) := rangesAux (N / T) (N % T) 0 0 T

/-- `double step = 1.0 / static_cast<double>(N);` (line 90). -/
noncomputable def step (N : ℕ) : ℝ := 1 / (N : ℝ)

/-- The `std::vector<ThreadData> threadData` after the setup loop: slot `i`
holds its range from the partition, `step = 1/N` and `sum = 0.0`. -/
noncomputable def threadData (N T : ℕ) : List ThreadData :=
  (ranges N T).map fun p => { start := p.1, endIdx := p.2, sum := 0, step := step N }

/-- Default `ThreadData`, used only for out-of-range `getD` reads. -/
noncomputable def dData : ThreadData := { start := 0, endIdx := 0, sum := 0, step := 0 }

/-- Worker `i` executes: it reads its own slot and overwrites it with the
result of `threadFunction`. No other slot is read or written. -/
noncomputable def runWorker (s : List ThreadData) (i : ℕ) : List ThreadData :=
  s.set i (threadFunction (s.getD i dData))

/-- Run the workers named by `order`, in that order. The threads execute
concurrently in the source; because each owns a distinct slot, any
interleaving is equivalent to some sequential order, and `runAll` is
proved below to be invariant under reordering. -/
noncomputable def runAll (s : List ThreadData) (order : List ℕ) : List ThreadData :=
  order.foldl runWorker s

/-- The join-and-reduce loop (lines 124–128): `totalSum = 0.0`, then for
`i = 0 .. T-1` in order, `totalSum += threadData[i].sum`. -/
noncomputable def totalSumOf (ds : List ThreadData) : ℝ :=
  ds.foldl (fun acc d => acc + d.sum) 0

/-- `double integralValue = step * totalSum;` (line 131). -/
noncomputable def integralValue (N : ℕ) (ds : List ThreadData) : ℝ :=
  step N * totalSumOf ds

/-- `double pi_approx = 4.0 * integralValue;` (line 132); this is the value
printed by the program. -/
noncomputable def pi_approx (N : ℕ) (ds : List ThreadData) : ℝ :=
  4 * integralValue N ds

/-- The printed value when the workers complete in the order `order`. -/
noncomputable def mainOutput (N T : ℕ) (order : List ℕ) : ℝ :=
  pi_approx N (runAll (threadData N T) order)

/-- The printed value of a run of `main` with inputs N, T (canonical
completion order). -/
noncomputable def mainRun (N T : ℕ) : ℝ := mainOutput N T (List.range T)

/-- Closed form for the `currentStart` value reached after `j` iterations
of the partition loop that began at loop index `i` with start `s`. -/
def startIdx (chunk rem i s j : ℕ) : ℕ :=
  s + j * chunk + (min (i + j) rem - min i rem)

lemma startIdx_zero (c r i s : ℕ) : startIdx c r i s 0 = s := by
  simp [startIdx]

lemma startIdx_le (c r i s j : ℕ) : s ≤ startIdx c r i s j := by
  unfold startIdx; omega

lemma startIdx_succ (c r i s j : ℕ) :
    startIdx c r i s (j + 1) =
      startIdx c r i s j + c + if i + j < r then 1 else 0 := by
  unfold startIdx
  by_cases h : i + j < r <;> simp only [h, if_true, if_false] <;>
    simp only [Nat.succ_mul] <;> omega

lemma startIdx_shift (c r i s j : ℕ) :
    startIdx c r (i + 1) (s + c + if i < r then 1 else 0) j =
      startIdx c r i s (j + 1) := by
  unfold startIdx
  by_cases h : i < r <;> simp only [h, if_true, if_false] <;>
    simp only [Nat.succ_mul] <;> omega

lemma startIdx_mono (c r i s j : ℕ) :
    startIdx c r i s j ≤ startIdx c r i s (j + 1) := by
  rw [startIdx_succ]; omega

/-- With `T ≥ 1`, after all `T` iterations the partition reaches exactly
`N`: `T * (N / T) + N % T = N`. -/
lemma startIdx_top (N T : ℕ) (hT : 1 ≤ T) :
    startIdx (N / T) (N % T) 0 0 T = N := by
  have h1 : T * (N / T) + N % T = N := Nat.div_add_mod N T
  have h2 : N % T < T := Nat.mod_lt _ hT
  unfold startIdx
  have h3 : T * (N / T) = (N / T) * T := Nat.mul_comm _ _
  omega

lemma rangesAux_length (c r : ℕ) :
    ∀ (k i s : ℕ), (rangesAux c r i s k).length = k := by
  intro k
  induction k with
  | zero => intro i s; rfl
  | succ k ih => intro i s; simp [rangesAux, ih]

/-- Closed form for slot `j` of the partition loop: it is the pair of
consecutive `currentStart` values. -/
lemma rangesAux_getD (c r : ℕ) :
    ∀ (k i s j : ℕ), j < k →
      (rangesAux c r i s k).getD j (0, 0) =
        (startIdx c r i s j, startIdx c r i s (j + 1)) := by
  intro k
  induction k with
  | zero => intro i s j h; omega
  | succ k ih =>
    intro i s j h
    match j with
    | 0 =>
      simp only [rangesAux, List.getD_cons_zero, startIdx_zero]
      rw [startIdx_succ, startIdx_zero]
      simp
    | Nat.succ j =>
      simp only [rangesAux, List.getD_cons_succ]
      rw [ih _ _ j (by omega), startIdx_shift, startIdx_shift]

/-- The sizes summed over any segment of the partition loop telescope to
the distance travelled by `currentStart`. -/
lemma rangesAux_sizes_sum (c r : ℕ) :
    ∀ (k i s : ℕ),
      ((rangesAux c r i s k).map (fun p => p.2 - p.1)).sum =
        startIdx c r i s k - s := by
  intro k
  induction k with
  | zero => intro i s; simp [rangesAux, startIdx_zero]
  | succ k ih =>
    intro i s
    simp only [rangesAux, List.map_cons, List.sum_cons]
    rw [ih]
    rw [startIdx_shift]
    have h1 : s ≤ s + c + if i < r then 1 else 0 := by omega
    have h2 := startIdx_le c r (i + 1) (s + c + if i < r then 1 else 0) k
    rw [startIdx_shift] at h2
    omega

lemma ranges_length (N T : ℕ) : (ranges N T).length = T :=
  rangesAux_length _ _ T 0 0

lemma ranges_getD (N T j : ℕ) (h : j < T) :
    (ranges N T).getD j (0, 0) =
      (startIdx (N / T) (N % T) 0 0 j, startIdx (N / T) (N % T) 0 0 (j + 1)) :=
  rangesAux_getD _ _ T 0 0 j h

/-- The worker loop computes, from accumulator `acc`, exactly `acc` plus
the sum of the midpoint samples over the next `k` indices. -/
lemma sumLoop_eq (stp : ℝ) :
    ∀ (k i : ℕ) (acc : ℝ),
      sumLoop stp i acc k =
        acc + ∑ t in Finset.Ico i (i + k), f (((t : ℝ) + 0.5) * stp) := by
  intro k
  induction k with
  | zero => intro i acc; simp [sumLoop]
  | succ k ih =>
    intro i acc
    rw [show i + (k + 1) = i + 1 + k by omega]
    simp only [sumLoop]
    rw [ih]
    have hlt : i < i + 1 + k := by omega
    rw [Finset.sum_eq_sum_Ico_succ_bot hlt]
    ring

lemma sumLoop_zero (stp : ℝ) (i : ℕ) (acc : ℝ) : sumLoop stp i acc 0 = acc := rfl

lemma sumLoop_succ (stp : ℝ) (i : ℕ) (acc : ℝ) (k : ℕ) :
    sumLoop stp i acc (k + 1) =
      sumLoop stp (i + 1) (acc + f (((i : ℝ) + 0.5) * stp)) k := rfl

/-- `threadFunction` stores the midpoint-rule sum over its index range. -/
lemma threadFunction_sum (d : ThreadData) :
    (threadFunction d).sum =
      ∑ t in Finset.Ico d.start (d.start + (d.endIdx - d.start)),
        f (((t : ℝ) + 0.5) * d.step) := by
  simp [threadFunction, sumLoop_eq]

lemma threadFunction_start (d : ThreadData) : (threadFunction d).start = d.start := rfl

lemma threadFunction_endIdx (d : ThreadData) : (threadFunction d).endIdx = d.endIdx := rfl

lemma threadFunction_step (d : ThreadData) : (threadFunction d).step = d.step := rfl

lemma runWorker_cons_succ (a : ThreadData) (t : List ThreadData) (i : ℕ) :
    runWorker (a :: t) (i + 1) = a :: runWorker t i := by
  simp [runWorker]

lemma runAll_nil (s : List ThreadData) : runAll s [] = s := rfl

lemma runAll_cons (s : List ThreadData) (x : ℕ) (l : List ℕ) :
    runAll s (x :: l) = runAll (runWorker s x) l := rfl

lemma runAll_map_succ (l : List ℕ) :
    ∀ (a : ThreadData) (t : List ThreadData),
      runAll (a :: t) (l.map Nat.succ) = a :: runAll t l := by
  induction l with
  | nil => intro a t; rfl
  | cons x l ih =>
    intro a t
    simp only [List.map_cons, runAll_cons]
    rw [show Nat.succ x = x + 1 from rfl, runWorker_cons_succ, ih]

/-- Running every worker exactly once, in index order, replaces every slot
by the result of `threadFunction` on it. -/
lemma runAll_range :
    ∀ (s : List ThreadData), runAll s (List.range s.length) = s.map threadFunction := by
  intro s
  induction s with
  | nil => rfl
  | cons a t ih =>
    simp only [List.length_cons, List.range_succ_eq_map, runAll_cons]
    have h0 : runWorker (a :: t) 0 = threadFunction a :: t := by
      simp [runWorker]
    rw [h0, runAll_map_succ, ih, List.map_cons]

/-- Writes by two workers commute: each touches only its own slot. -/
lemma runWorker_comm (s : List ThreadData) (i j : ℕ) :
    runWorker (runWorker s i) j = runWorker (runWorker s j) i := by
  rcases eq_or_ne i j with rfl | hij
  · rfl
  · unfold runWorker
    have hgi : (s.set j (threadFunction (s.getD j dData))).getD i dData = s.getD i dData := by
      simp [List.getElem?_set_ne hij.symm]
    have hgj : (s.set i (threadFunction (s.getD i dData))).getD j dData = s.getD j dData := by
      simp [List.getElem?_set_ne hij]
    rw [hgi, hgj, List.set_comm _ _ _ hij]

/-- The final state is invariant under the workers' completion order. -/
lemma runAll_perm : ∀ {o₁ o₂ : List ℕ}, o₁.Perm o₂ →
    ∀ (s : List ThreadData), runAll s o₁ = runAll s o₂ := by
  intro o₁ o₂ h
  induction h with
  | nil => intro s; rfl
  | cons x _ ih => intro s; rw [runAll_cons, runAll_cons, ih]
  | swap x y l => intro s; rw [runAll_cons, runAll_cons, runAll_cons, runAll_cons, runWorker_comm]
  | trans _ _ ih₁ ih₂ => intro s; rw [ih₁, ih₂]

lemma foldl_add_sum :
    ∀ (ds : List ThreadData) (a : ℝ),
      ds.foldl (fun acc d => acc + d.sum) a = a + (ds.map ThreadData.sum).sum := by
  intro ds
  induction ds with
  | nil => intro a; simp
  | cons d ds ih => intro a; simp [ih, add_assoc]

/-- The reduction loop adds up exactly the stored partial sums. -/
lemma totalSumOf_eq (ds : List ThreadData) :
    totalSumOf ds = (ds.map ThreadData.sum).sum := by
  simpa using foldl_add_sum ds 0

/-- A list sum of mapped values as a `Finset.range` sum over positions. -/
lemma map_sum_eq_range_sum (g : ThreadData → ℝ) :
    ∀ (l : List ThreadData),
      (l.map g).sum = ∑ i in Finset.range l.length, g (l.getD i dData) := by
  intro l
  induction l with
  | nil => simp
  | cons a t ih =>
    simp only [List.map_cons, List.sum_cons, List.length_cons]
    rw [Finset.sum_range_succ']
    simp only [List.getD_cons_succ, List.getD_cons_zero]
    rw [← ih]
    ring

/-- The per-range midpoint sums over the partition segments concatenate to
the midpoint sum over the whole travelled interval. -/
lemma rangesAux_sumLoop (stp : ℝ) (c r : ℕ) :
    ∀ (k i s : ℕ),
      ((rangesAux c r i s k).map (fun p => sumLoop stp p.1 0 (p.2 - p.1))).sum =
        ∑ t in Finset.Ico s (startIdx c r i s k), f (((t : ℝ) + 0.5) * stp) := by
  intro k
  induction k with
  | zero => intro i s; simp [rangesAux, startIdx_zero]
  | succ k ih =>
    intro i s
    simp only [rangesAux, List.map_cons, List.sum_cons]
    rw [ih, startIdx_shift]
    have h1 : s ≤ s + c + if i < r then 1 else 0 := by omega
    have h2 := startIdx_le c r (i + 1) (s + c + if i < r then 1 else 0) k
    rw [startIdx_shift] at h2
    rw [sumLoop_eq]
    rw [show s + (s + c + (if i < r then 1 else 0) - s) =
        s + c + if i < r then 1 else 0 by omega]
    rw [zero_add]
    exact Finset.sum_Ico_consecutive _ h1 h2

/-- `threadData` has one slot per worker. -/
lemma threadData_length (N T : ℕ) : (threadData N T).length = T := by
  simp [threadData, ranges_length]

/-- Slot `j` of the constructed task vector. -/
lemma threadData_getD (N T j : ℕ) (h : j < T) :
    (threadData N T).getD j dData =
      { start := ((ranges N T).getD j (0, 0)).1,
        endIdx := ((ranges N T).getD j (0, 0)).2,
        sum := 0, step := step N } := by
  have hlen : j < (ranges N T).length := by rw [ranges_length]; exact h
  unfold threadData
  rw [List.getD_eq_getElem?_getD, List.getElem?_map, List.getElem?_eq_getElem hlen]
  rw [List.getD_eq_getElem?_getD, List.getElem?_eq_getElem hlen]
  rfl

/-- After the join barrier, the reduction reads exactly the per-worker
midpoint sums, whose concatenation is the full midpoint sum over [0, N). -/
lemma totalSum_run (N T : ℕ) (hT : 1 ≤ T) :
    totalSumOf (runAll (threadData N T) (List.range T)) =
      ∑ t in Finset.Ico 0 N, f (((t : ℝ) + 0.5) * step N) := by
  rw [show List.range T = List.range (threadData N T).length from by
    rw [threadData_length]]
  rw [runAll_range, totalSumOf_eq, List.map_map]
  unfold threadData
  rw [List.map_map]
  rw [show (ThreadData.sum ∘ threadFunction) ∘
      (fun p : ℕ × ℕ =>
        ({ start := p.1, endIdx := p.2, sum := 0, step := step N } : ThreadData)) =
      fun p : ℕ × ℕ => sumLoop (step N) p.1 0 (p.2 - p.1) from rfl]
  rw [show ranges N T = rangesAux (N / T) (N % T) 0 0 T from rfl]
  rw [rangesAux_sumLoop, startIdx_top N T hT]

/-- The reduction as an index-ordered sum of the workers' stored results. -/
lemma totalSum_run_indexed (N T : ℕ) :
    totalSumOf (runAll (threadData N T) (List.range T)) =
      ∑ i in Finset.range T, (threadFunction ((threadData N T).getD i dData)).sum := by
  rw [show List.range T = List.range (threadData N T).length from by
    rw [threadData_length]]
  rw [runAll_range, totalSumOf_eq, List.map_map,
    map_sum_eq_range_sum (ThreadData.sum ∘ threadFunction), threadData_length]
  simp [Function.comp]

/-- The observable outcomes of one run of the process. -/
inductive ProgramOutcome where
  | completed (piApprox : ℝ)
  | rejected
  | crashed
  | undefinedBehavior

/-- `main`'s control flow on the raw inputs: `N` is `unsigned long long`
(ℕ), `T` is `int` (ℤ). The source performs no input validation at all
(lines 78–98): for `T < 0` the constructor
`std::vector<std::thread> threads(T)` converts `T` to a huge `size_t`
and throws, terminating the process abnormally (`crashed`); for `T = 0`
the expression `N / T` divides by zero — undefined behavior; for
`T > 0` the run always reaches `return 0`, printing `mainRun N T`.
No code path reports an InvalidArgument error: the constructor
`rejected` is never produced. -/
noncomputable def mainOutcome (N : ℕ) (T : ℤ) : ProgramOutcome :=
  if T < 0 then ProgramOutcome.crashed
  else if T = 0 then ProgramOutcome.undefinedBehavior
  else ProgramOutcome.completed (mainRun N T.toNat)

/-- Claim C1: for every N ≥ 1 and T ≥ 1 the partitioner produces T
contiguous index ranges covering [0, N) with no gaps and no overlaps:
the first worker starts at 0, each worker's start equals the previous
worker's end, every range is ordered (start ≤ end), the last worker's
end is N, and the sum of the range sizes is N. -/
theorem ranges_partition_correct (N T : ℕ) (hN : 1 ≤ N) (hT : 1 ≤ T) :
    (ranges N T).length = T ∧
    ((ranges N T).getD 0 (0, 0)).1 = 0 ∧
    (∀ j, j + 1 < T →
      ((ranges N T).getD (j + 1) (0, 0)).1 = ((ranges N T).getD j (0, 0)).2) ∧
    (∀ j, j < T → ((ranges N T).getD j (0, 0)).1 ≤ ((ranges N T).getD j (0, 0)).2) ∧
    ((ranges N T).getD (T - 1) (0, 0)).2 = N ∧
    ((ranges N T).map (fun p => p.2 - p.1)).sum = N := by
  refine ⟨ranges_length N T, ?_, ?_, ?_, ?_, ?_⟩
  · rw [ranges_getD N T 0 (by omega)]
    exact startIdx_zero _ _ _ _
  · intro j hj
    rw [ranges_getD N T (j + 1) (by omega), ranges_getD N T j (by omega)]
  · intro j hj
    rw [ranges_getD N T j hj]
    exact startIdx_mono _ _ _ _ _
  · rw [ranges_getD N T (T - 1) (by omega)]
    show startIdx (N / T) (N % T) 0 0 (T - 1 + 1) = N
    rw [show T - 1 + 1 = T by omega]
    exact startIdx_top N T hT
  · rw [show ranges N T = rangesAux (N / T) (N % T) 0 0 T from rfl,
      rangesAux_sizes_sum, startIdx_top N T hT]
    omega

/-- Witness for C1 at N = 4, T = 2. -/
theorem ranges_partition_correct_witness :
    ((1 : ℕ) ≤ 4 ∧ (1 : ℕ) ≤ 2) ∧
    ((ranges 4 2).length = 2 ∧
     ((ranges 4 2).getD 0 (0, 0)).1 = 0 ∧
     (∀ j, j + 1 < 2 →
       ((ranges 4 2).getD (j + 1) (0, 0)).1 = ((ranges 4 2).getD j (0, 0)).2) ∧
     (∀ j, j < 2 → ((ranges 4 2).getD j (0, 0)).1 ≤ ((ranges 4 2).getD j (0, 0)).2) ∧
     ((ranges 4 2).getD (2 - 1) (0, 0)).2 = 4 ∧
     ((ranges 4 2).map (fun p => p.2 - p.1)).sum = 4) :=
  ⟨⟨by decide, by decide⟩, ranges_partition_correct 4 2 (by decide) (by decide)⟩

/-- Claim C2: for a task with start ≤ end the worker stores exactly the
running sum, in increasing index order, of f((i + 0.5) * step) over
start ≤ i < end; an empty range stores exactly 0. -/
theorem threadFunction_partial_sum (d : ThreadData) (h : d.start ≤ d.endIdx) :
    (threadFunction d).sum =
      ∑ t in Finset.Ico d.start d.endIdx, f (((t : ℝ) + 0.5) * d.step) ∧
    (d.start = d.endIdx → (threadFunction d).sum = 0) := by
  have hkey : (threadFunction d).sum =
      ∑ t in Finset.Ico d.start d.endIdx, f (((t : ℝ) + 0.5) * d.step) := by
    rw [threadFunction_sum, Nat.add_sub_cancel' h]
  refine ⟨hkey, fun he => ?_⟩
  rw [hkey, he]
  simp

/-- Witness for C2 at the task (start 1, end 3, step 1). -/
theorem threadFunction_partial_sum_witness :
    (1 : ℕ) ≤ 3 ∧
    (threadFunction (ThreadData.mk 1 3 0 1)).sum =
      ∑ t in Finset.Ico (1 : ℕ) 3, f (((t : ℝ) + 0.5) * 1) := by
  have h := (threadFunction_partial_sum (ThreadData.mk 1 3 0 1) (by decide)).1
  exact ⟨by decide, h⟩

/-- Claim C3: for valid N and T the printed value is
piApprox = 4 * integral with integral = step * totalSum, where totalSum
adds every worker's stored PartialResult in task-index order. -/
theorem reducer_formula (N T : ℕ) (hN : 1 ≤ N) (hT : 1 ≤ T) :
    mainRun N T =
      4 * (step N *
        ∑ i in Finset.range T, (threadFunction ((threadData N T).getD i dData)).sum) := by
  unfold mainRun mainOutput pi_approx integralValue
  rw [totalSum_run_indexed]

/-- Witness for C3 at N = 3, T = 2. -/
theorem reducer_formula_witness :
    ((1 : ℕ) ≤ 3 ∧ (1 : ℕ) ≤ 2) ∧
    mainRun 3 2 =
      4 * (step 3 *
        ∑ i in Finset.range 2, (threadFunction ((threadData 3 2).getD i dData)).sum) :=
  ⟨⟨by decide, by decide⟩, reducer_formula 3 2 (by decide) (by decide)⟩

/-- Claim C4: worker i receives exactly chunk = N / T subintervals plus
one more when i < N % T; for N = 8, T = 3 the partition is
[0,3), [3,6), [6,8). -/
theorem ranges_chunk_remainder (N T : ℕ) (hN : 1 ≤ N) (hT : 1 ≤ T) :
    (∀ i, i < T →
      ((ranges N T).getD i (0, 0)).2 =
        ((ranges N T).getD i (0, 0)).1 + (N / T + if i < N % T then 1 else 0)) ∧
    ranges 8 3 = [(0, 3), (3, 6), (6, 8)] := by
  constructor
  · intro i hi
    rw [ranges_getD N T i hi]
    show startIdx (N / T) (N % T) 0 0 (i + 1) =
      startIdx (N / T) (N % T) 0 0 i + (N / T + if i < N % T then 1 else 0)
    rw [startIdx_succ, Nat.zero_add, Nat.add_assoc]
  · decide

/-- Witness for C4 at N = 8, T = 3. -/
theorem ranges_chunk_remainder_witness :
    ((1 : ℕ) ≤ 8 ∧ (1 : ℕ) ≤ 3) ∧
    ((∀ i, i < 3 →
      ((ranges 8 3).getD i (0, 0)).2 =
        ((ranges 8 3).getD i (0, 0)).1 + (8 / 3 + if i < 8 % 3 then 1 else 0)) ∧
     ranges 8 3 = [(0, 3), (3, 6), (6, 8)]) :=
  ⟨⟨by decide, by decide⟩, ranges_chunk_remainder 8 3 (by decide) (by decide)⟩

/-- Claim C5 counterexample: at N = 0, T = 1 (N == 0 with a positive
thread count) the program does not reject the input — it silently runs
to completion (exit code 0), contradicting the claim that such inputs
fail with an InvalidArgument condition. -/
theorem no_validation_counterexample :
    mainOutcome 0 1 = ProgramOutcome.completed (mainRun 0 1) ∧
    mainOutcome 0 1 ≠ ProgramOutcome.rejected := by
  constructor
  · unfold mainOutcome
    norm_num
  · unfold mainOutcome
    norm_num
    exact fun h => ProgramOutcome.noConfusion h

/-- Claim C5 amended: the program performs no input validation. No code
path produces an InvalidArgument rejection; with T > 0 (including
N == 0) it silently runs to completion, with T = 0 it hits the
division-by-zero undefined behavior in `chunk = N / T`, and with T < 0
the thread-vector construction aborts the process. -/
theorem mainOutcome_never_rejects (N : ℕ) (T : ℤ) :
    mainOutcome N T ≠ ProgramOutcome.rejected ∧
    (T < 0 → mainOutcome N T = ProgramOutcome.crashed) ∧
    (T = 0 → mainOutcome N T = ProgramOutcome.undefinedBehavior) ∧
    (0 < T → mainOutcome N T = ProgramOutcome.completed (mainRun N T.toNat)) := by
  unfold mainOutcome
  split_ifs with h1 h2
  · exact ⟨by simp, fun _ => rfl, by omega, by omega⟩
  · exact ⟨by simp, by omega, fun _ => rfl, by omega⟩
  · exact ⟨by simp, by omega, by omega, fun _ => rfl⟩

/-- Witness for the amended C5 at N = 0, T = 1. -/
theorem mainOutcome_never_rejects_witness :
    mainOutcome 0 1 ≠ ProgramOutcome.rejected ∧
    mainOutcome 0 1 = ProgramOutcome.completed (mainRun 0 1) := by
  refine ⟨(mainOutcome_never_rejects 0 1).1, ?_⟩
  have h := (mainOutcome_never_rejects 0 1).2.2.2 (by decide)
  simpa using h

/-- Claim C7: when T > N ≥ 1 every worker beyond the first N receives an
empty range (start = end) whose partial sum is 0, the final result
equals the single-threaded (T = 1) result exactly (the embedding works
in exact real arithmetic), and for N = 1, T = 4 the partition is
[0,1) followed by three empty ranges. -/
theorem empty_ranges_single_thread_equiv (N T : ℕ) (hN : 1 ≤ N) (hNT : N < T) :
    (∀ j, N ≤ j → j < T →
      ((ranges N T).getD j (0, 0)).2 = ((ranges N T).getD j (0, 0)).1 ∧
      (threadFunction ((threadData N T).getD j dData)).sum = 0) ∧
    mainRun N T = mainRun N 1 ∧
    ranges 1 4 = [(0, 1), (1, 1), (1, 1), (1, 1)] := by
  have hc : N / T = 0 := Nat.div_eq_of_lt hNT
  have hr : N % T = N := Nat.mod_eq_of_lt hNT
  have hrange : ∀ j, N ≤ j → j < T →
      (ranges N T).getD j (0, 0) = (N, N) := by
    intro j hNj hjT
    rw [ranges_getD N T j hjT, hc, hr]
    unfold startIdx
    have h1 : min (0 + j) N = N := by omega
    have h2 : min (0 + (j + 1)) N = N := by omega
    rw [h1, h2]
    simp
  refine ⟨?_, ?_, by decide⟩
  · intro j hNj hjT
    refine ⟨by rw [hrange j hNj hjT], ?_⟩
    rw [threadData_getD N T j hjT, hrange j hNj hjT]
    show sumLoop (step N) N 0 (N - N) = 0
    rw [Nat.sub_self]
    rfl
  · unfold mainRun mainOutput pi_approx integralValue
    rw [totalSum_run N T (by omega), totalSum_run N 1 le_rfl]

/-- Witness for C7 at N = 1, T = 4. -/
theorem empty_ranges_single_thread_equiv_witness :
    ((1 : ℕ) ≤ 1 ∧ 1 < 4) ∧
    ((∀ j, 1 ≤ j → j < 4 →
      ((ranges 1 4).getD j (0, 0)).2 = ((ranges 1 4).getD j (0, 0)).1 ∧
      (threadFunction ((threadData 1 4).getD j dData)).sum = 0) ∧
     mainRun 1 4 = mainRun 1 1 ∧
     ranges 1 4 = [(0, 1), (1, 1), (1, 1), (1, 1)]) :=
  ⟨⟨by decide, by decide⟩,
    empty_ranges_single_thread_equiv 1 4 (by decide) (by decide)⟩

/-- Claim C8: the computation is deterministic — the printed value depends
only on N and T, not on the order in which the workers happen to finish:
any two completion orders (each a permutation of the worker indices)
give the same task ranges, the same worker-local sums, and, with partial
sums added in task-index order, the same total. -/
theorem mainOutput_deterministic (N T : ℕ) (o₁ o₂ : List ℕ)
    (h₁ : o₁.Perm (List.range T)) (h₂ : o₂.Perm (List.range T)) :
    mainOutput N T o₁ = mainOutput N T o₂ := by
  unfold mainOutput
  rw [runAll_perm (h₁.trans h₂.symm)]

/-- Witness for C8 at N = 2, T = 2 with the two executions scheduled in
opposite orders. -/
theorem mainOutput_deterministic_witness :
    ([1, 0].Perm (List.range 2) ∧ [0, 1].Perm (List.range 2)) ∧
    mainOutput 2 2 [1, 0] = mainOutput 2 2 [0, 1] :=
  ⟨⟨by decide, by decide⟩,
    mainOutput_deterministic 2 2 [1, 0] [0, 1] (by decide) (by decide)⟩

/-- Claim C10: running one worker changes only the `sum` field of its own
slot — every other slot is untouched, and the `start`, `end` and `step`
fields of its own slot keep the values the task was constructed with. -/
theorem runWorker_frame (s : List ThreadData) (i : ℕ) :
    (∀ j, j ≠ i → (runWorker s i).getD j dData = s.getD j dData) ∧
    ((runWorker s i).getD i dData).start = (s.getD i dData).start ∧
    ((runWorker s i).getD i dData).endIdx = (s.getD i dData).endIdx ∧
    ((runWorker s i).getD i dData).step = (s.getD i dData).step := by
  constructor
  · intro j hj
    unfold runWorker
    rw [List.getD_eq_getElem?_getD, List.getElem?_set_ne (Ne.symm hj),
      ← List.getD_eq_getElem?_getD]
  · rcases Nat.lt_or_ge i s.length with h | h
    · unfold runWorker
      have hset : (s.set i (threadFunction (s.getD i dData))).getD i dData =
          threadFunction (s.getD i dData) := by
        rw [List.getD_eq_getElem?_getD, List.getElem?_set_self h]
        rfl
      rw [hset]
      exact ⟨rfl, rfl, rfl⟩
    · unfold runWorker
      rw [List.set_eq_of_length_le h]
      exact ⟨rfl, rfl, rfl⟩

/-- Witness for C10: worker 0 on a two-slot state leaves slot 1 untouched
and preserves its own slot's range and step fields. -/
theorem runWorker_frame_witness :
    (runWorker [ThreadData.mk 0 1 0 1, ThreadData.mk 1 2 0 1] 0).getD 1 dData =
      [ThreadData.mk 0 1 0 1, ThreadData.mk 1 2 0 1].getD 1 dData ∧
    ((runWorker [ThreadData.mk 0 1 0 1, ThreadData.mk 1 2 0 1] 0).getD 0 dData).start =
      ([ThreadData.mk 0 1 0 1, ThreadData.mk 1 2 0 1].getD 0 dData).start ∧
    ((runWorker [ThreadData.mk 0 1 0 1, ThreadData.mk 1 2 0 1] 0).getD 0 dData).endIdx =
      ([ThreadData.mk 0 1 0 1, ThreadData.mk 1 2 0 1].getD 0 dData).endIdx ∧
    ((runWorker [ThreadData.mk 0 1 0 1, ThreadData.mk 1 2 0 1] 0).getD 0 dData).step =
      ([ThreadData.mk 0 1 0 1, ThreadData.mk 1 2 0 1].getD 0 dData).step :=
  ⟨(runWorker_frame [ThreadData.mk 0 1 0 1, ThreadData.mk 1 2 0 1] 0).1 1 (by decide),
    (runWorker_frame [ThreadData.mk 0 1 0 1, ThreadData.mk 1 2 0 1] 0).2⟩

/-- Claim C9: for N = 1, T = 1 the single midpoint sample is x = 0.5 and
the program outputs 4 * 1.0 * f(0.5) = 4 * sqrt(3/4) ≈ 3.4641. -/
theorem pi_boundary_one_one :
    mainRun 1 1 = 4 * (1 * f 0.5) ∧
    mainRun 1 1 = 4 * Real.sqrt (3 / 4) ∧
    3.464 < mainRun 1 1 ∧ mainRun 1 1 < 3.4642 := by
  have hr : ranges 1 1 = [(0, 1)] := by decide
  have htd : threadData 1 1 = [ThreadData.mk 0 1 0 (step 1)] := by
    rw [threadData, hr]
    rfl
  have hs : step 1 = 1 := by
    unfold step
    norm_num
  have hval : mainRun 1 1 = 4 * (1 * f 0.5) := by
    unfold mainRun mainOutput
    rw [htd]
    show pi_approx 1 (runAll [ThreadData.mk 0 1 0 (step 1)] [0]) = _
    rw [runAll_cons, runAll_nil]
    unfold runWorker
    rw [List.getD_cons_zero]
    show pi_approx 1 [threadFunction (ThreadData.mk 0 1 0 (step 1))] = _
    unfold pi_approx integralValue totalSumOf threadFunction
    simp only [List.foldl_cons, List.foldl_nil]
    show 4 * (step 1 * (0 + sumLoop (step 1) 0 0 (1 - 0))) = _
    rw [hs, show (1 : ℕ) - 0 = 0 + 1 from rfl, sumLoop_succ, sumLoop_zero]
    norm_num
  have hsqrt : f 0.5 = Real.sqrt (3 / 4) := by
    unfold f
    norm_num
  have hlow : (0.866 : ℝ) < Real.sqrt (3 / 4) := by
    rw [Real.lt_sqrt (by norm_num)]
    norm_num
  have hhigh : Real.sqrt (3 / 4) < 0.86605 := by
    rw [Real.sqrt_lt' (by norm_num)]
    norm_num
  refine ⟨hval, ?_, ?_, ?_⟩
  · rw [hval, hsqrt]
    ring
  · rw [hval, hsqrt]
    nlinarith
  · rw [hval, hsqrt]
    nlinarith

end Zaw5
